import Mathlib

/-!
Verification of the duplicate-file finder (`finddup.py`).

The core data structure of the program is a Python `dict` mapping
fingerprint tuples `(size, digest1, digest2, ...)` to `set`s of file-path
strings.  We embed it as an association list `Grouping` whose keys are
lists of `FpElem` (a size or a digest string) and whose values are
duplicate-free lists of paths (`addToGroup` inserts a path only when it is
absent, mirroring Python `set.add`).

Filesystem access (`os.path.isdir`, `os.walk`, `os.path.islink`,
`os.path.ismount`, `os.path.getsize`) is abstracted as a `FileSystem`
record of pure functions; `getsize` returns `none` where the Python call
raises `OSError`.  The digest provider `get_digest` is abstracted as a
function `Path → Option String`: `none` models the uncaught `OSError`
raised by `open` (the `try:` in the source at line 86 is commented out, so
in `extend_dict_with_digest` a digest failure propagates as an exception;
the `except OSError` at line 141 wraps only the `dict_out[...].add` call,
which cannot raise `OSError`).  Fallible functions therefore return
`Except RefineErr`.

In `extend_dict_with_digest` the source draws a random exemplar key with
`random.choice(list(dict_in.keys()))`; on an empty dict this raises
`IndexError`, modelled by `RefineErr.indexError`.  When the dict is
non-empty the outcome of the uniformity check does not depend on which
exemplar is drawn (all lengths equal: every exemplar passes; some lengths
differ: every exemplar fails), so the model uses the first key.  The
check that all keys are tuples is vacuously true in the typed model.
Tracing and interim-dict debug printing are pure side channels and are
omitted; the scanner's diagnostic prints are modelled as a `ScanWarning`
list so that claims about warnings can be stated.
-/

namespace Finddup

abbrev Path := String
abbrev Algo := String

/-- One element of a fingerprint tuple: element 0 is the file size, the
later elements are digest hex strings. -/
inductive FpElem where
  | size (n : Nat)
  | digest (s : String)
deriving DecidableEq

/-- A fingerprint: a Python tuple `(size, digest1, ...)`. -/
abbrev Fp := List FpElem

/-- A grouping: Python `dict` from fingerprint tuple to `set` of paths,
embedded as an association list with duplicate-free value lists. -/
abbrev Grouping := List (Fp × List Path)

/-- `dict_out[key].add(filename)` on a `defaultdict(set)`: extend the
entry for `k` with `p` (if absent), or append a fresh entry. -/
def addToGroup : Grouping → Fp → Path → Grouping
  | [], k, p => [(k, [p])]
  | (k0, ps) :: rest, k, p =>
    if k = k0 then (k0, if p ∈ ps then ps else ps ++ [p]) :: rest
    else (k0, ps) :: addToGroup rest k p

/-- Membership of path `p` under key `k` in a grouping. -/
abbrev memG (g : Grouping) (k : Fp) (p : Path) : Prop :=
  ∃ ps, (k, ps) ∈ g ∧ p ∈ ps

/-- The ways `extend_dict_with_digest` (the Refiner) can terminate the
program: `IndexError` from `random.choice` on an empty key list,
`sys.exit("exiting program")` on uneven key lengths, and an uncaught
`OSError` escaping `get_digest`. -/
inductive RefineErr where
  | indexError
  | unevenKeys
  | ioError (p : Path)
deriving DecidableEq

/-- Loop body of `extend_dict_with_digest` lines 135-142: compute the
digest of `filename` (an `OSError` propagates), extend the key with it and
insert the path into `dict_out`. -/
def refineInsert (digest : Path → Option String) (key : Fp)
    (acc : Grouping) (filename : Path) : Except RefineErr Grouping :=
  match digest filename with
  | none => .error (.ioError filename)
  | some digest_value => .ok (addToGroup acc (key ++ [.digest digest_value]) filename)

/-- `extend_dict_with_digest( dict_in , digest_algorithm )` with the digest
algorithm already applied to `get_digest`: check key-length uniformity
against an exemplar key (raising `IndexError` when the dict is empty),
then redistribute every path under its extended key. -/
def extend_dict_with_digest (digest : Path → Option String)
    (dict_in : Grouping) : Except RefineErr Grouping :=
  match dict_in with
  | [] => .error .indexError
  | (one_key, _) :: _ =>
    if dict_in.all fun kv => kv.1.length = one_key.length then
      dict_in.foldlM (fun acc kv => kv.2.foldlM (refineInsert digest kv.1) acc) []
    else .error .unevenKeys

/-- `prune_dict_by_size_of_set( dict_of_sets , min_length )`: delete every
entry whose value set has fewer than `min_length` members. -/
def prune_dict_by_size_of_set (dict_of_sets : Grouping) (min_length : Nat) : Grouping :=
  dict_of_sets.filter fun kv => min_length ≤ kv.2.length

/-- The warnings `get_dict_of_files_by_size` prints to `stderr`.  There is
no constructor for an inaccessible file: the source only carries a
`FIXME` comment where that warning would be printed. -/
inductive ScanWarning where
  | dirNotFound (p : Path)
  | ignoringLink (p : Path)
  | ignoringMount (p : Path)
deriving DecidableEq

/-- The filesystem operations used by the scanner, as pure functions.
`walk r` lists the joined `full_path`s of the files `os.walk` yields under
root `r`; `getsize` is `none` where `os.path.getsize` raises `OSError`. -/
structure FileSystem where
  isDir : Path → Bool
  walk : Path → List Path
  islink : Path → Bool
  ismount : Path → Bool
  getsize : Path → Option Nat

/-- Per-file body of the scanner loop (lines 163-177): skip links and
mount points with a warning, skip inaccessible files silently, and group
accessible regular files under the one-element key `(file_size,)`. -/
def scanEntry (fs : FileSystem) (st : Grouping × List ScanWarning)
    (full_path : Path) : Grouping × List ScanWarning :=
  if fs.islink full_path then (st.1, st.2 ++ [.ignoringLink full_path])
  else if fs.ismount full_path then (st.1, st.2 ++ [.ignoringMount full_path])
  else
    match fs.getsize full_path with
    | some file_size => (addToGroup st.1 [FpElem.size file_size] full_path, st.2)
    | none => st

/-- Per-root body of the scanner loop (lines 158-177): warn and skip a
root that is not a directory, otherwise scan every file under it. -/
def scanRoot (fs : FileSystem) (st : Grouping × List ScanWarning)
    (path : Path) : Grouping × List ScanWarning :=
  if fs.isDir path then (fs.walk path).foldl (scanEntry fs) st
  else (st.1, st.2 ++ [.dirNotFound path])

/-- `get_dict_of_files_by_size( paths )` together with the warnings it
prints to `stderr`. -/
def get_dict_of_files_by_size (fs : FileSystem) (paths : List Path) :
    Grouping × List ScanWarning :=
  paths.foldl (scanRoot fs) ([], [])

/-- `get_duplicates_dictionary( paths , digest_algorithm_list )`: size
scan, prune, then for each digest algorithm refine and prune.  A digest
failure or an empty interim dict aborts the run (the exception propagates
to the caller). -/
def get_duplicates_dictionary (fs : FileSystem)
    (digest : Algo → Path → Option String) (paths : List Path)
    (digest_algorithm_list : List Algo) : Except RefineErr Grouping :=
  let dict0 := prune_dict_by_size_of_set (get_dict_of_files_by_size fs paths).1 2
  digest_algorithm_list.foldlM
    (fun dict_out digest_algorithm => do
      let extended ← extend_dict_with_digest (digest digest_algorithm) dict_out
      pure (prune_dict_by_size_of_set extended 2))
    dict0

/-- The orchestration pipeline exactly as the specification's pseudocode
writes it: `g = prune(scan(roots), 2)`, then for each algorithm in order
`g = prune(refine(g, algo), 2)`, returning the last grouping. -/
def findDuplicatesSpecLoop (digest : Algo → Path → Option String) :
    Grouping → List Algo → Except RefineErr Grouping
  | g, [] => .ok g
  | g, algo :: rest =>
    match extend_dict_with_digest (digest algo) g with
    | .error e => .error e
    | .ok g2 => findDuplicatesSpecLoop digest (prune_dict_by_size_of_set g2 2) rest

/-- The specification's `findDuplicates(roots, algorithms)` composition. -/
def findDuplicatesSpec (fs : FileSystem) (digest : Algo → Path → Option String)
    (paths : List Path) (algos : List Algo) : Except RefineErr Grouping :=
  findDuplicatesSpecLoop digest
    (prune_dict_by_size_of_set (get_dict_of_files_by_size fs paths).1 2) algos

/-- `chunk_reader( fobj , chunk_size )`: the list of chunks successively
returned by `fobj.read(chunk_size)` until a falsy (empty) chunk, for a
file whose remaining content is the byte list `bs`.  With `chunk_size = 0`
Python's `read(0)` returns `b''` at once, so no chunks are produced. -/
def chunk_reader (chunk_size : Nat) (bs : List Nat) : List (List Nat) :=
  if chunk_size = 0 then []
  else if h : bs = [] then []
  else bs.take chunk_size :: chunk_reader chunk_size (bs.drop chunk_size)
termination_by bs.length
decreasing_by
  have hpos : 0 < bs.length := List.length_pos.mpr h
  simp only [List.length_drop]
  omega

/-- `get_digest` with the incremental hasher abstracted: `hashlib`'s
contract is that the digest depends only on the concatenation of all
bytes passed to `update`, so the hasher state is the byte list fed so far
and `hexdigest` is an arbitrary function `H` of it.  This is the
chunk-by-chunk digest the source computes. -/
def get_digest_streamed (H : List Nat → String) (chunk_size : Nat)
    (content : List Nat) : String :=
  H ((chunk_reader chunk_size content).foldl (fun fed chunk => fed ++ chunk) [])

/-- The digest of the whole content hashed in one shot. -/
def get_digest_oneshot (H : List Nat → String) (content : List Nat) : String :=
  H content

/-! ### Claims C3 and C5: the pruner -/

/-- Claim C3: `prune(g, m)` removes exactly the entries whose path-set
cardinality (the length of the duplicate-free member list) is strictly
below `m`, and every value set surviving `prune(g, 2)` has at least two
members. -/
theorem prune_removes_exactly_small_sets (g : Grouping) (m : Nat) :
    (∀ kv : Fp × List Path,
      kv ∈ prune_dict_by_size_of_set g m ↔ kv ∈ g ∧ m ≤ kv.2.length) ∧
    (∀ kv ∈ prune_dict_by_size_of_set g 2, 2 ≤ kv.2.length) := by
  constructor
  · intro kv
    simp [prune_dict_by_size_of_set, List.mem_filter]
  · intro kv hkv
    have := (List.mem_filter.mp hkv).2
    simpa using this

/-- Claim C5: pruning is idempotent, `prune(prune(g, 2), 2) = prune(g, 2)`. -/
theorem prune_idempotent (g : Grouping) :
    prune_dict_by_size_of_set (prune_dict_by_size_of_set g 2) 2 =
      prune_dict_by_size_of_set g 2 := by
  unfold prune_dict_by_size_of_set
  rw [List.filter_filter]
  congr 1
  funext kv
  by_cases h : 2 ≤ kv.2.length <;> simp [h]

/-! ### Claim C1: a digest failure aborts the whole refine call -/

/-- Claim C1 (refuted, code bug): on the grouping `{(1,): {"a", "b"}}`
where the digest of `"a"` fails and the digest of `"b"` would succeed,
`extend_dict_with_digest` does not drop only `"a"` and keep `"b"`: the
uncaught `OSError` from `get_digest` aborts the whole call, because the
`try` in the source is commented out and the `except OSError` wraps only
the dict insertion. -/
theorem refine_aborted_by_single_digest_failure :
    extend_dict_with_digest (fun p => if p = "a" then none else some "db")
        [([FpElem.size 1], ["a", "b"])] =
      .error (.ioError "a") := by
  rfl

/-! ### Claim C2: the engine on a root with no regular files -/

/-- Claim C2 (refuted, code bug): with one valid digest algorithm and a
root directory containing no regular files, the engine does not return an
empty grouping: `extend_dict_with_digest` calls
`random.choice(list(dict_in.keys()))` on the empty interim dict and dies
with `IndexError`. -/
theorem engine_crashes_on_empty_root :
    get_duplicates_dictionary
        ⟨fun _ => true, fun _ => [], fun _ => false, fun _ => false, fun _ => none⟩
        (fun _ _ => some "d") ["root"] ["sha1"] =
      .error .indexError := by
  rfl

/-! ### Claim C8: warnings for skipped items -/

/-- Claim C8 (refuted, code bug): a root directory holding one regular
file whose size cannot be read: the file is skipped (the grouping is
empty) yet the warning list is empty too — the source has only a `FIXME`
comment where the inaccessible-file warning should be printed, so not
every skipped item produces a warning. -/
theorem inaccessible_file_skipped_without_warning :
    get_dict_of_files_by_size
        ⟨fun _ => true, fun _ => ["f"], fun _ => false, fun _ => false, fun _ => none⟩
        ["root"] =
      ([], []) := by
  rfl

/-! ### Claim C6: the engine is the scan/prune/refine/prune composition -/

/-- The engine's `for` loop over the algorithm list equals the
specification's explicit loop, for every starting grouping. -/
theorem engine_loop_eq_spec_loop (digest : Algo → Path → Option String)
    (algos : List Algo) :
    ∀ g : Grouping,
      algos.foldlM
          (fun dict_out a => do
            let extended ← extend_dict_with_digest (digest a) dict_out
            pure (prune_dict_by_size_of_set extended 2))
          g =
        findDuplicatesSpecLoop digest g algos := by
  induction algos with
  | nil => intro g; rfl
  | cons a rest ih =>
    intro g
    rw [List.foldlM_cons]
    cases h : extend_dict_with_digest (digest a) g with
    | error e =>
      simp only [findDuplicatesSpecLoop, h]
      rfl
    | ok g2 =>
      simp only [findDuplicatesSpecLoop, h]
      exact ih (prune_dict_by_size_of_set g2 2)

/-- Claim C6: for every filesystem, digest provider, root list and
algorithm list, `get_duplicates_dictionary` computes exactly the
composition `prune(scan(roots), 2)` followed by, for each algorithm in
order, `prune(refine(g, algo), 2)`, returning the last grouping. -/
theorem engine_eq_spec_pipeline (fs : FileSystem)
    (digest : Algo → Path → Option String) (paths : List Path)
    (algos : List Algo) :
    get_duplicates_dictionary fs digest paths algos =
      findDuplicatesSpec fs digest paths algos := by
  unfold get_duplicates_dictionary findDuplicatesSpec
  exact engine_loop_eq_spec_loop digest algos _

/-! ### Membership lemmas for `addToGroup` -/

/-- Unfolding `memG` over a cons cell. -/
theorem memG_cons {k0 : Fp} {ps : List Path} {rest : Grouping} {k : Fp} {q : Path} :
    memG ((k0, ps) :: rest) k q ↔ (k = k0 ∧ q ∈ ps) ∨ memG rest k q := by
  simp only [memG, List.mem_cons, Prod.mk.injEq]
  constructor
  · rintro ⟨ps1, (⟨hk, hps⟩ | h), hq⟩
    · subst hk; subst hps; exact Or.inl ⟨rfl, hq⟩
    · exact Or.inr ⟨ps1, h, hq⟩
  · rintro (⟨hk, hq⟩ | ⟨ps1, h, hq⟩)
    · exact ⟨ps, Or.inl ⟨hk, rfl⟩, hq⟩
    · exact ⟨ps1, Or.inr h, hq⟩

/-- `addToGroup` adds exactly the pair `(k, p)` to the members of a
grouping. -/
theorem addToGroup_mem (g : Grouping) (k : Fp) (p : Path) (k1 : Fp) (q : Path) :
    memG (addToGroup g k p) k1 q ↔ memG g k1 q ∨ (k1 = k ∧ q = p) := by
  induction g with
  | nil =>
    rw [show addToGroup [] k p = [(k, [p])] from rfl, memG_cons]
    simp [memG]
  | cons kv0 rest ih =>
    obtain ⟨k0, ps⟩ := kv0
    by_cases hk : k = k0
    · subst hk
      have hadd : addToGroup ((k, ps) :: rest) k p =
          (k, if p ∈ ps then ps else ps ++ [p]) :: rest := by
        simp [addToGroup]
      rw [hadd, memG_cons, memG_cons]
      by_cases hp : p ∈ ps
      · simp only [if_pos hp]
        constructor
        · rintro (⟨rfl, hq⟩ | h)
          · exact Or.inl (Or.inl ⟨rfl, hq⟩)
          · exact Or.inl (Or.inr h)
        · rintro ((⟨rfl, hq⟩ | h) | ⟨rfl, rfl⟩)
          · exact Or.inl ⟨rfl, hq⟩
          · exact Or.inr h
          · exact Or.inl ⟨rfl, hp⟩
      · simp only [if_neg hp, List.mem_append, List.mem_singleton]
        constructor
        · rintro (⟨rfl, hq | rfl⟩ | h)
          · exact Or.inl (Or.inl ⟨rfl, hq⟩)
          · exact Or.inr ⟨rfl, rfl⟩
          · exact Or.inl (Or.inr h)
        · rintro ((⟨rfl, hq⟩ | h) | ⟨rfl, rfl⟩)
          · exact Or.inl ⟨rfl, Or.inl hq⟩
          · exact Or.inr h
          · exact Or.inl ⟨rfl, Or.inr rfl⟩
    · simp only [addToGroup, if_neg hk]
      rw [memG_cons, memG_cons, ih]
      exact or_assoc.symm

/-- Every key of `addToGroup g k p` is `k` or a key of `g`. -/
theorem addToGroup_keys (g : Grouping) (k : Fp) (p : Path) :
    ∀ kv ∈ addToGroup g k p, kv.1 = k ∨ kv.1 ∈ g.map Prod.fst := by
  induction g with
  | nil =>
    intro kv hkv
    simp only [addToGroup, List.mem_singleton] at hkv
    subst hkv
    exact Or.inl rfl
  | cons kv0 rest ih =>
    obtain ⟨k0, ps⟩ := kv0
    intro kv hkv
    simp only [addToGroup] at hkv
    by_cases hk : k = k0
    · rw [if_pos hk] at hkv
      rcases List.mem_cons.mp hkv with rfl | h
      · exact Or.inl hk.symm
      · exact Or.inr (by simp [List.mem_map_of_mem Prod.fst h])
    · rw [if_neg hk] at hkv
      rcases List.mem_cons.mp hkv with rfl | h
      · exact Or.inr (by simp)
      · rcases ih kv h with h1 | h1
        · exact Or.inl h1
        · exact Or.inr (by simp [h1])

/-! ### Claim C7: the scanner never outputs links or mount points -/

/-- One scanner step only inserts paths that passed the link and mount
tests. -/
theorem scanEntry_excludes (fs : FileSystem) (st : Grouping × List ScanWarning)
    (fp : Path)
    (hst : ∀ k q, memG st.1 k q → fs.islink q = false ∧ fs.ismount q = false) :
    ∀ k q, memG (scanEntry fs st fp).1 k q →
      fs.islink q = false ∧ fs.ismount q = false := by
  intro k q hq
  unfold scanEntry at hq
  by_cases hl : fs.islink fp = true
  · rw [if_pos hl] at hq
    exact hst k q hq
  · rw [if_neg hl] at hq
    by_cases hm : fs.ismount fp = true
    · rw [if_pos hm] at hq
      exact hst k q hq
    · rw [if_neg hm] at hq
      cases hsz : fs.getsize fp with
      | none =>
        rw [hsz] at hq
        exact hst k q hq
      | some n =>
        rw [hsz] at hq
        rcases (addToGroup_mem st.1 [FpElem.size n] fp k q).mp hq with h | ⟨_, rfl⟩
        · exact hst k q h
        · exact ⟨by simpa using hl, by simpa using hm⟩

/-- The scanner's file loop preserves the link/mount exclusion. -/
theorem scanFold_excludes (fs : FileSystem) (l : List Path) :
    ∀ st : Grouping × List ScanWarning,
      (∀ k q, memG st.1 k q → fs.islink q = false ∧ fs.ismount q = false) →
      ∀ k q, memG (l.foldl (scanEntry fs) st).1 k q →
        fs.islink q = false ∧ fs.ismount q = false := by
  induction l with
  | nil => intro st hst; exact hst
  | cons fp rest ih =>
    intro st hst
    rw [List.foldl_cons]
    exact ih _ (scanEntry_excludes fs st fp hst)

/-- One root's scan preserves the link/mount exclusion. -/
theorem scanRoot_excludes (fs : FileSystem) (st : Grouping × List ScanWarning)
    (root : Path)
    (hst : ∀ k q, memG st.1 k q → fs.islink q = false ∧ fs.ismount q = false) :
    ∀ k q, memG (scanRoot fs st root).1 k q →
      fs.islink q = false ∧ fs.ismount q = false := by
  unfold scanRoot
  by_cases hd : fs.isDir root = true
  · rw [if_pos hd]
    exact scanFold_excludes fs _ st hst
  · rw [if_neg hd]
    exact hst

/-- The scanner's root loop preserves the link/mount exclusion. -/
theorem rootsFold_excludes (fs : FileSystem) (paths : List Path) :
    ∀ st : Grouping × List ScanWarning,
      (∀ k q, memG st.1 k q → fs.islink q = false ∧ fs.ismount q = false) →
      ∀ k q, memG (paths.foldl (scanRoot fs) st).1 k q →
        fs.islink q = false ∧ fs.ismount q = false := by
  induction paths with
  | nil => intro st hst; exact hst
  | cons root rest ih =>
    intro st hst
    rw [List.foldl_cons]
    exact ih _ (scanRoot_excludes fs st root hst)

/-- Claim C7: for every filesystem and root list, no symbolic link and no
mount point ever appears as a member of any path set in the scanner's
output grouping. -/
theorem scanner_excludes_links_and_mounts (fs : FileSystem) (paths : List Path)
    (kv : Fp × List Path) (p : Path)
    (hkv : kv ∈ (get_dict_of_files_by_size fs paths).1) (hp : p ∈ kv.2) :
    fs.islink p = false ∧ fs.ismount p = false := by
  obtain ⟨k, ps⟩ := kv
  have hmem : memG (get_dict_of_files_by_size fs paths).1 k p := ⟨ps, hkv, hp⟩
  exact rootsFold_excludes fs paths ([], [])
    (fun k1 q h => absurd h (by simp [memG])) k p hmem

/-- Witness for claim C7: a filesystem with one plain regular file `"f"`
of size 5; the scanner groups it and `"f"` is neither link nor mount. -/
theorem scanner_excludes_links_and_mounts_witness :
    (⟨fun _ => true, fun _ => ["f"], fun _ => false, fun _ => false,
        fun _ => some 5⟩ : FileSystem).islink "f" = false ∧
      (⟨fun _ => true, fun _ => ["f"], fun _ => false, fun _ => false,
          fun _ => some 5⟩ : FileSystem).ismount "f" = false :=
  scanner_excludes_links_and_mounts
    ⟨fun _ => true, fun _ => ["f"], fun _ => false, fun _ => false, fun _ => some 5⟩
    ["root"] ([FpElem.size 5], ["f"]) "f" (by decide) (by decide)

/-! ### Claim C4: refinement extends every fingerprint by one element -/

/-- The per-path refinement loop for one input key of length `L` keeps
every output key at length `L + 1`. -/
theorem refineFold_keylen (digest : Path → Option String) (k : Fp) (L : Nat)
    (hk : k.length = L) (ps : List Path) :
    ∀ acc out : Grouping,
      (∀ kv ∈ acc, kv.1.length = L + 1) →
      ps.foldlM (refineInsert digest k) acc = .ok out →
      ∀ kv ∈ out, kv.1.length = L + 1 := by
  induction ps with
  | nil =>
    intro acc out hacc hout
    rw [List.foldlM_nil] at hout
    cases Except.ok.inj hout
    exact hacc
  | cons p rest ih =>
    intro acc out hacc hout
    rw [List.foldlM_cons] at hout
    cases hd : digest p with
    | none =>
      simp only [refineInsert, hd] at hout
      exact Except.noConfusion hout
    | some d =>
      simp only [refineInsert, hd] at hout
      have hout2 : rest.foldlM (refineInsert digest k)
          (addToGroup acc (k ++ [.digest d]) p) = .ok out := hout
      refine ih (addToGroup acc (k ++ [.digest d]) p) out ?_ hout2
      intro kv hkv
      rcases addToGroup_keys acc (k ++ [.digest d]) p kv hkv with h | h
      · rw [h, List.length_append, hk]
        rfl
      · rcases List.mem_map.mp h with ⟨kv1, hkv1, hfst⟩
        rw [← hfst]
        exact hacc kv1 hkv1

/-- The refinement loop over whole entries, all of key length `L`, keeps
every output key at length `L + 1`. -/
theorem extendFold_keylen (digest : Path → Option String) (L : Nat)
    (l : List (Fp × List Path)) :
    ∀ acc out : Grouping,
      (∀ kv ∈ l, kv.1.length = L) →
      (∀ kv ∈ acc, kv.1.length = L + 1) →
      l.foldlM (fun a kv => kv.2.foldlM (refineInsert digest kv.1) a) acc = .ok out →
      ∀ kv ∈ out, kv.1.length = L + 1 := by
  induction l with
  | nil =>
    intro acc out _ hacc hout
    rw [List.foldlM_nil] at hout
    cases Except.ok.inj hout
    exact hacc
  | cons kv0 rest ih =>
    intro acc out hl hacc hout
    rw [List.foldlM_cons] at hout
    cases hmid : kv0.2.foldlM (refineInsert digest kv0.1) acc with
    | error e =>
      rw [hmid] at hout
      exact Except.noConfusion hout
    | ok mid =>
      rw [hmid] at hout
      have hout2 : rest.foldlM
          (fun a kv => kv.2.foldlM (refineInsert digest kv.1) a) mid = .ok out := hout
      refine ih mid out (fun kv hkv => hl kv (List.mem_cons_of_mem _ hkv)) ?_ hout2
      exact refineFold_keylen digest kv0.1 L (hl kv0 (List.mem_cons_self _ _)) kv0.2
        acc mid hacc hmid

/-- Claim C4: for every grouping whose fingerprints all have length `L`,
if `extend_dict_with_digest` returns a grouping (all member files were
readable), every fingerprint key of the result has length exactly
`L + 1`. -/
theorem refine_extends_key_length (digest : Path → Option String)
    (g out : Grouping) (L : Nat)
    (hL : ∀ kv ∈ g, kv.1.length = L)
    (hok : extend_dict_with_digest digest g = .ok out) :
    ∀ kv ∈ out, kv.1.length = L + 1 := by
  cases g with
  | nil => exact Except.noConfusion hok
  | cons kv0 rest =>
    simp only [extend_dict_with_digest] at hok
    by_cases hu : ((kv0 :: rest).all fun kv => kv.1.length = kv0.1.length) = true
    · rw [if_pos hu] at hok
      exact extendFold_keylen digest L (kv0 :: rest) [] out hL (by simp) hok
    · rw [if_neg hu] at hok
      exact Except.noConfusion hok

/-- Witness for claim C4: a one-entry grouping with key `(1,)` and two
readable files; the refined grouping's single entry has a key of
length 2. -/
theorem refine_extends_key_length_witness :
    (([FpElem.size 1, FpElem.digest "d"], ["a", "b"]) : Fp × List Path).1.length =
      1 + 1 :=
  refine_extends_key_length (fun _ => some "d") [([FpElem.size 1], ["a", "b"])]
    [([FpElem.size 1, FpElem.digest "d"], ["a", "b"])] 1 (by decide) (by rfl)
    ([FpElem.size 1, FpElem.digest "d"], ["a", "b"]) (by decide)

/-! ### Claim C10: chunked hashing equals one-shot hashing -/

/-- Feeding the chunks of `chunk_reader` to the accumulating hasher state
in order appends exactly the original content, for any chunk size ≥ 1. -/
theorem chunk_reader_foldl (chunk_size : Nat) (h1 : 1 ≤ chunk_size) :
    ∀ (n : Nat) (bs fed : List Nat), bs.length ≤ n →
      (chunk_reader chunk_size bs).foldl (fun a c => a ++ c) fed = fed ++ bs := by
  intro n
  induction n with
  | zero =>
    intro bs fed hlen
    have hbs : bs = [] := List.length_eq_zero.mp (Nat.le_zero.mp hlen)
    subst hbs
    rw [chunk_reader]
    simp
  | succ n ih =>
    intro bs fed hlen
    rw [chunk_reader]
    have h0 : ¬ chunk_size = 0 := by omega
    rw [if_neg h0]
    by_cases hbs : bs = []
    · rw [dif_pos hbs]
      simp [hbs]
    · rw [dif_neg hbs]
      rw [List.foldl_cons]
      have hpos : 0 < bs.length := List.length_pos.mpr hbs
      have hdrop : (bs.drop chunk_size).length ≤ n := by
        rw [List.length_drop]
        omega
      rw [ih (bs.drop chunk_size) (fed ++ bs.take chunk_size) hdrop]
      rw [List.append_assoc, List.take_append_drop]

/-- Claim C10: for every hasher, every chunk size ≥ 1 and every file
content, the digest computed chunk-by-chunk through `chunk_reader` equals
the digest of the whole byte sequence hashed in one shot. -/
theorem chunked_digest_eq_oneshot (H : List Nat → String) (chunk_size : Nat)
    (content : List Nat) (h1 : 1 ≤ chunk_size) :
    get_digest_streamed H chunk_size content = get_digest_oneshot H content := by
  unfold get_digest_streamed get_digest_oneshot
  rw [chunk_reader_foldl chunk_size h1 content.length content [] le_rfl]
  rw [List.nil_append]

/-- Witness for claim C10: chunk size 2 on a 3-byte content, with a
hasher that renders the fed byte list. -/
theorem chunked_digest_eq_oneshot_witness :
    get_digest_streamed (fun bs => toString bs) 2 [7, 8, 9] =
      get_digest_oneshot (fun bs => toString bs) [7, 8, 9] :=
  chunked_digest_eq_oneshot (fun bs => toString bs) 2 [7, 8, 9] (by decide)

/-! ### Claim C9: refinement neither loses nor invents paths -/

/-- Characterization of the members produced by the per-path refinement
loop for one input key. -/
theorem refineFold_mem (digest : Path → Option String) (k : Fp) (ps : List Path) :
    ∀ acc out : Grouping,
      ps.foldlM (refineInsert digest k) acc = .ok out →
      ∀ k1 q, (memG out k1 q ↔
        memG acc k1 q ∨
          (q ∈ ps ∧ ∃ d, digest q = some d ∧ k1 = k ++ [.digest d])) := by
  induction ps with
  | nil =>
    intro acc out hout k1 q
    rw [List.foldlM_nil] at hout
    cases Except.ok.inj hout
    simp
  | cons p rest ih =>
    intro acc out hout k1 q
    rw [List.foldlM_cons] at hout
    cases hd : digest p with
    | none =>
      simp only [refineInsert, hd] at hout
      exact Except.noConfusion hout
    | some d =>
      simp only [refineInsert, hd] at hout
      have hout2 : rest.foldlM (refineInsert digest k)
          (addToGroup acc (k ++ [.digest d]) p) = .ok out := hout
      rw [ih _ out hout2 k1 q, addToGroup_mem]
      constructor
      · rintro ((h | ⟨rfl, rfl⟩) | ⟨hq, d1, hd1, rfl⟩)
        · exact Or.inl h
        · exact Or.inr ⟨List.mem_cons_self _ _, d, hd, rfl⟩
        · exact Or.inr ⟨List.mem_cons_of_mem _ hq, d1, hd1, rfl⟩
      · rintro (h | ⟨hq, d1, hd1, rfl⟩)
        · exact Or.inl (Or.inl h)
        · rcases List.mem_cons.mp hq with rfl | hq2
          · rw [hd] at hd1
            cases Option.some.inj hd1
            exact Or.inl (Or.inr ⟨rfl, rfl⟩)
          · exact Or.inr ⟨hq2, d1, hd1, rfl⟩

/-- Characterization of the members produced by the refinement loop over
whole entries. -/
theorem extendFold_mem (digest : Path → Option String) (l : List (Fp × List Path)) :
    ∀ acc out : Grouping,
      l.foldlM (fun a kv => kv.2.foldlM (refineInsert digest kv.1) a) acc = .ok out →
      ∀ k1 q, (memG out k1 q ↔
        memG acc k1 q ∨
          ∃ kv ∈ l, q ∈ kv.2 ∧ ∃ d, digest q = some d ∧ k1 = kv.1 ++ [.digest d]) := by
  induction l with
  | nil =>
    intro acc out hout k1 q
    rw [List.foldlM_nil] at hout
    cases Except.ok.inj hout
    simp
  | cons kv0 rest ih =>
    intro acc out hout k1 q
    rw [List.foldlM_cons] at hout
    cases hmid : kv0.2.foldlM (refineInsert digest kv0.1) acc with
    | error e =>
      rw [hmid] at hout
      exact Except.noConfusion hout
    | ok mid =>
      rw [hmid] at hout
      have hout2 : rest.foldlM
          (fun a kv => kv.2.foldlM (refineInsert digest kv.1) a) mid = .ok out := hout
      rw [ih mid out hout2 k1 q, refineFold_mem digest kv0.1 kv0.2 acc mid hmid k1 q]
      constructor
      · rintro ((h | h0) | ⟨kv, hkv, hq⟩)
        · exact Or.inl h
        · exact Or.inr ⟨kv0, List.mem_cons_self _ _, h0⟩
        · exact Or.inr ⟨kv, List.mem_cons_of_mem _ hkv, hq⟩
      · rintro (h | ⟨kv, hkv, hq⟩)
        · exact Or.inl (Or.inl h)
        · rcases List.mem_cons.mp hkv with rfl | hkv2
          · exact Or.inl (Or.inr hq)
          · exact Or.inr ⟨kv, hkv2, hq⟩

/-- Full membership characterization of `extend_dict_with_digest`: a path
appears in the result under `k1` exactly when some input entry holds it,
its digest succeeds and `k1` is the entry's key extended by that digest. -/
theorem extend_mem (digest : Path → Option String) (g out : Grouping)
    (hok : extend_dict_with_digest digest g = .ok out) (k1 : Fp) (q : Path) :
    memG out k1 q ↔
      ∃ kv ∈ g, q ∈ kv.2 ∧ ∃ d, digest q = some d ∧ k1 = kv.1 ++ [.digest d] := by
  cases g with
  | nil => exact Except.noConfusion hok
  | cons kv0 rest =>
    simp only [extend_dict_with_digest] at hok
    by_cases hu : ((kv0 :: rest).all fun kv => kv.1.length = kv0.1.length) = true
    · rw [if_pos hu] at hok
      rw [extendFold_mem digest (kv0 :: rest) [] out hok k1 q]
      simp [memG]
    · rw [if_neg hu] at hok
      exact Except.noConfusion hok

/-- `addToGroup` keeps every value set non-empty. -/
theorem addToGroup_values_ne_nil (k : Fp) (p : Path) :
    ∀ g : Grouping, (∀ kv ∈ g, kv.2 ≠ []) →
      ∀ kv ∈ addToGroup g k p, kv.2 ≠ [] := by
  intro g
  induction g with
  | nil =>
    intro _ kv hkv
    simp only [addToGroup, List.mem_singleton] at hkv
    subst hkv
    simp
  | cons kv0 rest ih =>
    obtain ⟨k0, ps⟩ := kv0
    intro hg kv hkv
    simp only [addToGroup] at hkv
    by_cases hk : k = k0
    · rw [if_pos hk] at hkv
      rcases List.mem_cons.mp hkv with rfl | h
      · by_cases hp : p ∈ ps
        · simpa [hp] using hg (k0, ps) (List.mem_cons_self _ _)
        · simp [hp]
      · exact hg kv (List.mem_cons_of_mem _ h)
    · rw [if_neg hk] at hkv
      rcases List.mem_cons.mp hkv with rfl | h
      · exact hg (k0, ps) (List.mem_cons_self _ _)
      · exact ih (fun kv2 hkv2 => hg kv2 (List.mem_cons_of_mem _ hkv2)) kv h

/-- The per-path refinement loop keeps every value set non-empty. -/
theorem refineFold_ne_nil (digest : Path → Option String) (k : Fp) (ps : List Path) :
    ∀ acc out : Grouping, (∀ kv ∈ acc, kv.2 ≠ []) →
      ps.foldlM (refineInsert digest k) acc = .ok out →
      ∀ kv ∈ out, kv.2 ≠ [] := by
  induction ps with
  | nil =>
    intro acc out hacc hout
    rw [List.foldlM_nil] at hout
    cases Except.ok.inj hout
    exact hacc
  | cons p rest ih =>
    intro acc out hacc hout
    rw [List.foldlM_cons] at hout
    cases hd : digest p with
    | none =>
      simp only [refineInsert, hd] at hout
      exact Except.noConfusion hout
    | some d =>
      simp only [refineInsert, hd] at hout
      have hout2 : rest.foldlM (refineInsert digest k)
          (addToGroup acc (k ++ [.digest d]) p) = .ok out := hout
      exact ih (addToGroup acc (k ++ [.digest d]) p) out
        (addToGroup_values_ne_nil _ p acc hacc) hout2

/-- The refinement loop over whole entries keeps every value set
non-empty. -/
theorem extendFold_ne_nil (digest : Path → Option String)
    (l : List (Fp × List Path)) :
    ∀ acc out : Grouping, (∀ kv ∈ acc, kv.2 ≠ []) →
      l.foldlM (fun a kv => kv.2.foldlM (refineInsert digest kv.1) a) acc = .ok out →
      ∀ kv ∈ out, kv.2 ≠ [] := by
  induction l with
  | nil =>
    intro acc out hacc hout
    rw [List.foldlM_nil] at hout
    cases Except.ok.inj hout
    exact hacc
  | cons kv0 rest ih =>
    intro acc out hacc hout
    rw [List.foldlM_cons] at hout
    cases hmid : kv0.2.foldlM (refineInsert digest kv0.1) acc with
    | error e =>
      rw [hmid] at hout
      exact Except.noConfusion hout
    | ok mid =>
      rw [hmid] at hout
      have hout2 : rest.foldlM
          (fun a kv => kv.2.foldlM (refineInsert digest kv.1) a) mid = .ok out := hout
      exact ih mid out
        (refineFold_ne_nil digest kv0.1 kv0.2 acc mid hacc hmid) hout2

/-- Every value set of a successful refinement result is non-empty. -/
theorem extend_ne_nil (digest : Path → Option String) (g out : Grouping)
    (hok : extend_dict_with_digest digest g = .ok out) :
    ∀ kv ∈ out, kv.2 ≠ [] := by
  cases g with
  | nil => exact Except.noConfusion hok
  | cons kv0 rest =>
    simp only [extend_dict_with_digest] at hok
    by_cases hu : ((kv0 :: rest).all fun kv => kv.1.length = kv0.1.length) = true
    · rw [if_pos hu] at hok
      exact extendFold_ne_nil digest (kv0 :: rest) [] out (by simp) hok
    · rw [if_neg hu] at hok
      exact Except.noConfusion hok

/-- Appending one element to a list is injective in both arguments. -/
theorem append_singleton_inj {α : Type} {l1 l2 : List α} {a b : α}
    (h : l1 ++ [a] = l2 ++ [b]) : l1 = l2 ∧ a = b := by
  have hr := congrArg List.reverse h
  simp only [List.reverse_append, List.reverse_singleton,
    List.singleton_append] at hr
  obtain ⟨hab, hrev⟩ := List.cons.inj hr
  exact ⟨List.reverse_injective hrev, hab⟩

/-- In a grouping with duplicate-free keys, an entry is determined by its
key. -/
theorem keys_nodup_entry_unique :
    ∀ g : Grouping, (g.map Prod.fst).Nodup →
      ∀ kv1 ∈ g, ∀ kv2 ∈ g, kv1.1 = kv2.1 → kv1 = kv2 := by
  intro g
  induction g with
  | nil =>
    intro _ kv1 h
    exact absurd h (List.not_mem_nil _)
  | cons kv0 rest ih =>
    intro hnd kv1 h1 kv2 h2 hk
    rw [List.map_cons, List.nodup_cons] at hnd
    rcases List.mem_cons.mp h1 with rfl | h1r
    · rcases List.mem_cons.mp h2 with rfl | h2r
      · rfl
      · exact absurd
          (show kv1.1 ∈ rest.map Prod.fst by
            rw [hk]; exact List.mem_map_of_mem Prod.fst h2r) hnd.1
    · rcases List.mem_cons.mp h2 with rfl | h2r
      · exact absurd
          (show kv2.1 ∈ rest.map Prod.fst by
            rw [← hk]; exact List.mem_map_of_mem Prod.fst h1r) hnd.1
      · exact ih hnd.2 kv1 h1r kv2 h2r hk

/-- Claim C9: on a grouping with uniform-length keys that satisfies the
dict invariants (duplicate-free keys, pairwise-disjoint path sets) and
whose member files are all readable, a successful refinement neither
loses nor invents paths — the union of all output path sets equals the
union of all input path sets — and each output group's path set is a
subset of exactly one input group's path set. -/
theorem refine_preserves_and_refines_partition (digest : Path → Option String)
    (g out : Grouping) (L : Nat)
    (hL : ∀ kv ∈ g, kv.1.length = L)
    (hnd : (g.map Prod.fst).Nodup)
    (hdisj : ∀ kv1 ∈ g, ∀ kv2 ∈ g, kv1 ≠ kv2 →
      ∀ q : Path, q ∈ kv1.2 → q ∈ kv2.2 → False)
    (hsucc : ∀ kv ∈ g, ∀ q ∈ kv.2, ∃ d, digest q = some d)
    (hok : extend_dict_with_digest digest g = .ok out) :
    (∀ q : Path, (∃ kv ∈ out, q ∈ kv.2) ↔ ∃ kv ∈ g, q ∈ kv.2) ∧
    (∀ kv1 ∈ out, ∃ kv ∈ g, (∀ q ∈ kv1.2, q ∈ kv.2) ∧
      ∀ kv2 ∈ g, (∀ q ∈ kv1.2, q ∈ kv2.2) → kv2 = kv) := by
  constructor
  · intro q
    constructor
    · rintro ⟨kv1, hkv1, hq⟩
      have hm : memG out kv1.1 q := ⟨kv1.2, by simpa using hkv1, hq⟩
      rcases (extend_mem digest g out hok kv1.1 q).mp hm with ⟨kv, hkv, hq2, _⟩
      exact ⟨kv, hkv, hq2⟩
    · rintro ⟨kv, hkv, hq⟩
      rcases hsucc kv hkv q hq with ⟨d, hd⟩
      have hm : memG out (kv.1 ++ [.digest d]) q :=
        (extend_mem digest g out hok _ q).mpr ⟨kv, hkv, hq, d, hd, rfl⟩
      rcases hm with ⟨ps, hps, hqps⟩
      exact ⟨(kv.1 ++ [.digest d], ps), hps, hqps⟩
  · intro kv1 hkv1
    have hne1 : kv1.2 ≠ [] := extend_ne_nil digest g out hok kv1 hkv1
    rcases List.exists_mem_of_ne_nil _ hne1 with ⟨q0, hq0⟩
    have hm0 : memG out kv1.1 q0 := ⟨kv1.2, by simpa using hkv1, hq0⟩
    rcases (extend_mem digest g out hok kv1.1 q0).mp hm0 with
      ⟨kv, hkv, hq0kv, d0, hd0, hk1⟩
    refine ⟨kv, hkv, ?_, ?_⟩
    · intro q hq
      have hm : memG out kv1.1 q := ⟨kv1.2, by simpa using hkv1, hq⟩
      rcases (extend_mem digest g out hok kv1.1 q).mp hm with
        ⟨kvq, hkvq, hqkvq, dq, hdq, hk1q⟩
      have heq : kvq.1 ++ [FpElem.digest dq] = kv.1 ++ [FpElem.digest d0] := by
        rw [← hk1q, ← hk1]
      obtain ⟨hkeys, _⟩ := append_singleton_inj heq
      have hkveq : kvq = kv := keys_nodup_entry_unique g hnd kvq hkvq kv hkv hkeys
      rw [← hkveq]
      exact hqkvq
    · intro kv2 hkv2 hsub
      by_contra hne2
      exact hdisj kv2 hkv2 kv hkv hne2 q0 (hsub q0 hq0) hq0kv

/-- Witness for claim C9: a two-group input whose digest provider always
succeeds; the refined grouping splits the first group and the conclusion
holds at this concrete instance. -/
theorem refine_preserves_and_refines_partition_witness :
    (∀ q : Path,
      (∃ kv ∈ ([([FpElem.size 1, FpElem.digest "ha"], ["a"]),
          ([FpElem.size 1, FpElem.digest "hb"], ["b"]),
          ([FpElem.size 2, FpElem.digest "hc"], ["c"])] : Grouping), q ∈ kv.2) ↔
        ∃ kv ∈ ([([FpElem.size 1], ["a", "b"]),
          ([FpElem.size 2], ["c"])] : Grouping), q ∈ kv.2) ∧
    (∀ kv1 ∈ ([([FpElem.size 1, FpElem.digest "ha"], ["a"]),
        ([FpElem.size 1, FpElem.digest "hb"], ["b"]),
        ([FpElem.size 2, FpElem.digest "hc"], ["c"])] : Grouping),
      ∃ kv ∈ ([([FpElem.size 1], ["a", "b"]),
          ([FpElem.size 2], ["c"])] : Grouping),
        (∀ q ∈ kv1.2, q ∈ kv.2) ∧
        ∀ kv2 ∈ ([([FpElem.size 1], ["a", "b"]),
            ([FpElem.size 2], ["c"])] : Grouping),
          (∀ q ∈ kv1.2, q ∈ kv2.2) → kv2 = kv) :=
  refine_preserves_and_refines_partition
    (fun q => some ("h" ++ q))
    [([FpElem.size 1], ["a", "b"]), ([FpElem.size 2], ["c"])]
    [([FpElem.size 1, FpElem.digest "ha"], ["a"]),
      ([FpElem.size 1, FpElem.digest "hb"], ["b"]),
      ([FpElem.size 2, FpElem.digest "hc"], ["c"])]
    1 (by decide) (by decide) (by decide)
    (fun kv _ q _ => ⟨"h" ++ q, rfl⟩) (by rfl)

end Finddup
